import Mathlib

/-!
# Verification of the portico port-assignment core

Shallow embedding of the hash / reduce / port-assignment core of the
portico library (`src/index.ts`, exported as `primeHash`, `HASH`,
`REDUCERS`, `getPort`, `analyzeImportMap`) together with the benchmark
routine of `src/cli.ts`.

Modelling conventions:
* A JavaScript string is modelled as its sequence of UTF-16 code units
  (`List Nat`); `name.length` and `name.charCodeAt(i)` in the source
  become `name.length` and the `i`-th list element.
* JavaScript 32-bit operations are modelled over `Nat` with explicit
  `% 2^32`.  `(Math.imul(h, p) + c) >>> 0` equals `(h * p + c) % 2^32`
  for natural `h, p, c`: `Math.imul` returns `h * p` reduced mod `2^32`
  (as a signed 32-bit value, hence ≥ −2^31), adding `c ≥ 0` keeps the
  value > −2^32, and `>>> 0` reduces mod `2^32`.
* Errors thrown by the source become an explicit `PortError` value in
  `Except`; the data interpolated into each thrown message is carried as
  fields of the corresponding constructor.
-/

namespace Portico

/-- A JavaScript string, as its list of UTF-16 code units. -/
abbrev JSString := List Nat

/-- `2^32`, the modulus of the JavaScript 32-bit operations. -/
def U32 : Nat := 4294967296

/-- The loop of `primeHash` (src/index.ts): at position `i` the
accumulator becomes `(Math.imul(hash, primes[i % primes.length]) +
name.charCodeAt(i)) >>> 0`, i.e. `(hash * p + c) % 2^32`. -/
def primeHashGo (primes : List Nat) : Nat → Nat → JSString → Nat
  | _, hash, [] => hash
  | i, hash, c :: cs =>
    primeHashGo primes (i + 1) ((hash * primes.getD (i % primes.length) 0 + c) % U32) cs

/-- `primeHash(name, primes, initial)` from src/index.ts.  The optional
`initial` parameter of the source defaults to `name.length`; call sites below
pass the default explicitly. -/
def primeHash (name : JSString) (primes : List Nat) (initial : Nat) : Nat :=
  primeHashGo primes 0 initial name

/-- `HASH.sdbm` from src/index.ts. -/
def sdbm (name : JSString) : Nat := primeHash name [65599] name.length

/-- `HASH.safe` from src/index.ts. -/
def safe (name : JSString) : Nat := primeHash name [23] name.length

/-- `HASH.twin` from src/index.ts. -/
def twin (name : JSString) : Nat := primeHash name [31, 37] name.length

/-- `HASH.cascade` from src/index.ts. -/
def cascade (name : JSString) : Nat := primeHash name [31, 37, 41, 43, 47] name.length

/-- `HASH.double` from src/index.ts.  `hash2 << 1` converts `hash2 < 2^31`
to a signed 32-bit value and doubles it, so its bit pattern is
`2 * hash2 % 2^32`; `^` is a 32-bit XOR and `>>> 0` reads the result as
an unsigned 32-bit integer. -/
def double (name : JSString) : Nat :=
  let hash1 := primeHash name [31] name.length % 2147483647
  let hash2 := primeHash name [37] 1 % 2147483647
  let combined := (hash1 ^^^ (2 * hash2 % U32)) % U32
  let phi := 2654435761
  combined * phi % U32

/-- `REDUCERS.modulo` from src/index.ts. -/
def modulo (hash range : Nat) : Nat := hash % range

/-- `Math.ceil(Math.log2 n)` for `1 ≤ n ≤ 2^32`: the least `k ≤ 32` with
`n ≤ 2^k` (and `33` when there is none, which cannot happen for the
validated range `1 ≤ n ≤ 10000`).  `Math.log2` is exact on powers of two
and has error far below the gap to the nearest integer for the other
integers in this range, so `Math.ceil` of it is the mathematical
`⌈log2 n⌉`. -/
def ceilLog2 (n : Nat) : Nat :=
  (((List.range 33).filter (fun k => n ≤ 2 ^ k)).head?).getD 33

/-- `REDUCERS.knuth` from src/index.ts.  A JavaScript shift `x >>> s`
uses only the low five bits of `s`, hence the `% 32` on the shift
amount (it matters for `range = 1`, where `32 - ceil(log2 1) = 32` and
`x >>> 32 = x`). -/
def knuth (hash range : Nat) : Nat :=
  let constant := 2654435769
  let multiplied := hash * constant % U32
  multiplied / 2 ^ ((32 - ceilLog2 range) % 32) % range

/-- `REDUCERS.lcg` from src/index.ts.  The source computes
`Math.floor((result / 0x100000000) * range)` in floating point; since
`result < 2^32` and `range ≤ 10000`, `result * range < 2^46 < 2^53`, so
the float computation is exact and equals `result * range / 2^32` in
integer division. -/
def lcg (hash range : Nat) : Nat :=
  let a := 1664525
  let c := 1013904223
  let result := (a * hash + c) % U32
  result * range / U32

/-- The `HASH` lookup table of src/index.ts, as a name-keyed partial map
(own keys only). -/
def HASH (name : String) : Option (JSString → Nat) :=
  if name = "sdbm" then some sdbm
  else if name = "safe" then some safe
  else if name = "twin" then some twin
  else if name = "cascade" then some cascade
  else if name = "double" then some double
  else none

/-- The `REDUCERS` lookup table of src/index.ts. -/
def REDUCERS (name : String) : Option (Nat → Nat → Nat) :=
  if name = "modulo" then some modulo
  else if name = "knuth" then some knuth
  else if name = "lcg" then some lcg
  else none

/-- The errors thrown by `getPort` (src/index.ts), with the data that
the source interpolates into each message carried as fields. -/
inductive PortError where
  | invalidIdentifier
  | invalidBasePort
  | invalidRange
  | invariantViolated (hashName reducerName : String)
      (port offset basePort range : Nat)
  deriving DecidableEq

/-- The body of `getPort` (src/index.ts) with the two looked-up
functions abstracted, so that the post-computation safety check can be
stated for an arbitrary (possibly faulty) hash/reducer pair exactly as
the test suite of the source exercises it. -/
def getPortWith (hash reducer : String) (hashFunction : JSString → Nat)
    (reducerFunction : Nat → Nat → Nat) (packageName : JSString)
    (basePort range : Nat) : Except PortError Nat :=
  if packageName.isEmpty then .error .invalidIdentifier
  else if basePort < 1024 ∨ 65535 < basePort then .error .invalidBasePort
  else if range < 1 ∨ 10000 < range then .error .invalidRange
  else
    let hashValue := hashFunction packageName
    let offset := reducerFunction hashValue range
    let port := basePort + offset
    if port < basePort ∨ basePort + range ≤ port then
      .error (.invariantViolated hash reducer port offset basePort range)
    else .ok port

/-- `getPort(packageName, basePort, range, hash, reducer)` from
src/index.ts: validate, look up the hash and reducer functions falling
back to `twin` / `knuth` (`HASH[hash] || HASH.twin`), compute
`basePort + reducer(hash(packageName), range)`, and re-check the
bounds. -/
def getPort (packageName : JSString) (basePort range : Nat)
    (hash reducer : String) : Except PortError Nat :=
  getPortWith hash reducer ((HASH hash).getD twin) ((REDUCERS reducer).getD knuth)
    packageName basePort range

/-- The result record of `analyzeImportMap` (src/index.ts): the forward
map `entries` (identifier to port, in input-key order) and the inverse
grouping `ports` (port to the identifiers that resolved to it, each
group in processing order).  Both JavaScript objects are modelled as
association lists; only the order *inside* each `ports` group is
claim-relevant, so the (numeric-ascending) enumeration order in which the
`ports` object lists its keys is not reproduced. -/
structure ImportMapAnalysis where
  entries : List (JSString × Nat)
  ports : List (Nat × List JSString)
  deriving DecidableEq

/-- One step of the `ports` accumulator of `analyzeImportMap`:
`acc[port] = [...(acc[port] || []), packageName]`. -/
def addToPorts : List (Nat × List JSString) → Nat → JSString → List (Nat × List JSString)
  | [], port, name => [(port, [name])]
  | (q, l) :: rest, port, name =>
    if q = port then (q, l ++ [name]) :: rest
    else (q, l) :: addToPorts rest port name

/-- The `reduce` building `ports` from `entries` in `analyzeImportMap`. -/
def buildPorts (entries : List (JSString × Nat)) : List (Nat × List JSString) :=
  entries.foldl (fun acc e => addToPorts acc e.2 e.1) []

/-- The `Object.keys(importMap.imports).map(...)` of `analyzeImportMap`:
assign a port to every key in order; the first `getPort` failure
propagates. -/
def mapPorts (imports : List JSString) (basePort range : Nat)
    (hash reducer : String) : Except PortError (List (JSString × Nat)) :=
  match imports with
  | [] => .ok []
  | n :: ns =>
    match getPort n basePort range hash reducer with
    | .error e => .error e
    | .ok port =>
      match mapPorts ns basePort range hash reducer with
      | .error e => .error e
      | .ok rest => .ok ((n, port) :: rest)

/-- The core of `analyzeImportMap` (src/index.ts), after the collaborator
concerns the spec scopes out (file/URL reading, JSON parsing, and the
`imports`-shape check): its input is the key list of the `imports`
object of a well-formed import map. -/
def analyzeImportMap (imports : List JSString) (basePort range : Nat)
    (hash reducer : String) : Except PortError ImportMapAnalysis :=
  match mapPorts imports basePort range hash reducer with
  | .error e => .error e
  | .ok entries => .ok ⟨entries, buildPorts entries⟩

/-- One row of the results of the benchmark command (src/cli.ts). -/
structure BenchmarkResult where
  hash : String
  reducer : String
  collisions : Nat
  uniquePorts : Nat
  deriving DecidableEq

/-- `Object.keys(HASH)` in insertion order (src/cli.ts `HASH_NAMES`). -/
def HASH_NAMES : List String := ["sdbm", "safe", "twin", "cascade", "double"]

/-- `Object.keys(REDUCERS)` in insertion order (src/cli.ts `REDUCER_NAMES`). -/
def REDUCER_NAMES : List String := ["modulo", "knuth", "lcg"]

/-- `s.charAt(0).toUpperCase() + s.slice(1)` from the benchmark action. -/
def jsCapitalize (s : String) : String :=
  match s.data with
  | [] => s
  | c :: cs => String.mk (c.toUpper :: cs)

/-- The collision count of the benchmark: total members of groups that hold
more than one identifier. -/
def collisionCount (a : ImportMapAnalysis) : Nat :=
  ((a.ports.filter (fun g => 1 < g.2.length)).map (fun g => g.2.length)).sum

/-- The `uniquePorts` field of the benchmark: `Object.keys(analysis.ports).length`. -/
def uniquePortCount (a : ImportMapAnalysis) : Nat := a.ports.length

/-- One iteration of the combination loop of the benchmark (src/cli.ts):
run the analysis for a (hash, reducer) pair and record a result row, or
record nothing when the combination fails (the `try/catch` that warns
and continues). -/
def strategyResult (imports : List JSString) (basePort range : Nat)
    (hash reducer : String) : Option BenchmarkResult :=
  match analyzeImportMap imports basePort range hash reducer with
  | .error _ => none
  | .ok a => some ⟨jsCapitalize hash, jsCapitalize reducer, collisionCount a, uniquePortCount a⟩

/-- The comparator of the benchmark as a "may come first" test: `a` may
precede `b` exactly when the source comparator `(a, b) => a.collisions -
b.collisions || b.uniquePorts - a.uniquePorts` returns a value ≤ 0. -/
def benchLe (a b : BenchmarkResult) : Bool :=
  decide (a.collisions < b.collisions) ||
    (decide (a.collisions = b.collisions) && decide (b.uniquePorts ≤ a.uniquePorts))

/-- The engine of the benchmark command (src/cli.ts): run every hash × reducer
combination in enumeration order, keep the successful rows, and sort
them with the comparator.  `Array.prototype.sort` is required to be
stable, and a stable sort under this total preorder is unique, so it is
modelled by `List.mergeSort`. -/
def benchmark (imports : List JSString) (basePort range : Nat) : List BenchmarkResult :=
  ((HASH_NAMES.flatMap (fun h => REDUCER_NAMES.map (fun r => (h, r)))).filterMap
    (fun c => strategyResult imports basePort range c.1 c.2)).mergeSort benchLe

/-- The "prime mix" primitive of the spec (§4.1), written from the
words of the spec for the refinement claim C3: iterate over the character positions
in order; at position `i` multiply the accumulator by `P[i mod |P|]`
with 32-bit wrapping, add the code of the character, and keep the low 32
bits. -/
def primeMixSpec (primes : List Nat) (init : Nat) (name : JSString) : Nat :=
  (List.range name.length).foldl
    (fun acc i => (acc * primes.getD (i % primes.length) 0 + name.getD i 0) % U32) init

end Portico

deriving instance DecidableEq for Except

namespace Portico

theorem modulo_lt (hash range : Nat) (hr : 1 ≤ range) : modulo hash range < range :=
  Nat.mod_lt _ hr

theorem knuth_lt (hash range : Nat) (hr : 1 ≤ range) : knuth hash range < range :=
  Nat.mod_lt _ hr

theorem lcg_lt (hash range : Nat) (hr : 1 ≤ range) : lcg hash range < range := by
  unfold lcg
  have h1 : (1664525 * hash + 1013904223) % U32 < U32 := Nat.mod_lt _ (by decide)
  have h2 : (1664525 * hash + 1013904223) % U32 * range < range * U32 := by
    rw [Nat.mul_comm range U32]
    exact Nat.mul_lt_mul_of_lt_of_le h1 (Nat.le_refl range) (by omega)
  exact (Nat.div_lt_iff_lt_mul (by decide)).mpr h2

/-- Whatever reducer name is requested, the function actually used by
`getPort` (table hit or `knuth` fallback) stays below `range`. -/
theorem reducers_getD_lt (reducer : String) (hash range : Nat) (hr : 1 ≤ range) :
    ((REDUCERS reducer).getD knuth) hash range < range := by
  unfold REDUCERS
  split_ifs <;> simp only [Option.getD_some, Option.getD_none] <;>
    first
      | exact modulo_lt hash range hr
      | exact knuth_lt hash range hr
      | exact lcg_lt hash range hr

theorem getPortWith_ok (hash reducer : String) (hashFunction : JSString → Nat)
    (reducerFunction : Nat → Nat → Nat) (packageName : JSString) (basePort range : Nat)
    (hname : packageName ≠ []) (hb1 : 1024 ≤ basePort) (hb2 : basePort ≤ 65535)
    (hr1 : 1 ≤ range) (hr2 : range ≤ 10000)
    (hlt : reducerFunction (hashFunction packageName) range < range) :
    getPortWith hash reducer hashFunction reducerFunction packageName basePort range =
      .ok (basePort + reducerFunction (hashFunction packageName) range) := by
  unfold getPortWith
  have hne : packageName.isEmpty = false := by
    cases packageName with
    | nil => exact absurd rfl hname
    | cons a l => rfl
  rw [hne]
  simp only [Bool.false_eq_true, if_false]
  rw [if_neg (by omega), if_neg (by omega), if_neg (by omega)]

theorem getPortWith_invariantViolated (hash reducer : String)
    (hashFunction : JSString → Nat) (reducerFunction : Nat → Nat → Nat)
    (packageName : JSString) (basePort range : Nat)
    (hname : packageName ≠ []) (hb1 : 1024 ≤ basePort) (hb2 : basePort ≤ 65535)
    (hr1 : 1 ≤ range) (hr2 : range ≤ 10000)
    (hge : range ≤ reducerFunction (hashFunction packageName) range) :
    getPortWith hash reducer hashFunction reducerFunction packageName basePort range =
      .error (.invariantViolated hash reducer
        (basePort + reducerFunction (hashFunction packageName) range)
        (reducerFunction (hashFunction packageName) range) basePort range) := by
  unfold getPortWith
  have hne : packageName.isEmpty = false := by
    cases packageName with
    | nil => exact absurd rfl hname
    | cons a l => rfl
  rw [hne]
  simp only [Bool.false_eq_true, if_false]
  rw [if_neg (by omega), if_neg (by omega), if_pos (by omega)]

/-- On validated input, `getPort` returns the base port plus the offset
computed by the selected (or fallback) hash/reducer pair. -/
theorem getPort_ok (packageName : JSString) (basePort range : Nat) (hash reducer : String)
    (hname : packageName ≠ []) (hb1 : 1024 ≤ basePort) (hb2 : basePort ≤ 65535)
    (hr1 : 1 ≤ range) (hr2 : range ≤ 10000) :
    getPort packageName basePort range hash reducer =
      .ok (basePort +
        ((REDUCERS reducer).getD knuth) (((HASH hash).getD twin) packageName) range) :=
  getPortWith_ok hash reducer _ _ packageName basePort range hname hb1 hb2 hr1 hr2
    (reducers_getD_lt reducer _ range hr1)

/-- C1: for every non-empty identifier, base port in [1024, 65535],
range in [1, 10000], named hash in the hash table and named reducer in
the reducer table, `getPort` succeeds with a port `p` satisfying
`basePort ≤ p < basePort + range`. -/
theorem c1_getPort_in_assigned_range (packageName : JSString) (basePort range : Nat)
    (hash reducer : String) (hname : packageName ≠ [])
    (hb1 : 1024 ≤ basePort) (hb2 : basePort ≤ 65535)
    (hr1 : 1 ≤ range) (hr2 : range ≤ 10000)
    (hhash : hash ∈ HASH_NAMES) (hreducer : reducer ∈ REDUCER_NAMES) :
    ∃ port, getPort packageName basePort range hash reducer = .ok port ∧
      basePort ≤ port ∧ port < basePort + range := by
  refine ⟨_, getPort_ok packageName basePort range hash reducer hname hb1 hb2 hr1 hr2,
    Nat.le_add_right _ _, ?_⟩
  have := reducers_getD_lt reducer (((HASH hash).getD twin) packageName) range hr1
  omega

theorem c1_witness :
    ([109, 121] : JSString) ≠ [] ∧
      ∃ port, getPort [109, 121] 3001 1997 "twin" "knuth" = .ok port ∧
        3001 ≤ port ∧ port < 3001 + 1997 :=
  ⟨by decide,
    c1_getPort_in_assigned_range [109, 121] 3001 1997 "twin" "knuth" (by decide)
      (by decide) (by decide) (by decide) (by decide) (by decide) (by decide)⟩

/-- C2: for every unsigned 32-bit hash value and range in [1, 10000],
each reducer returns an offset in `[0, range)` (`0 ≤` holds by the
result type; totality means no reducer can throw), and returns 0 when
the range is 1. -/
theorem c2_reducers_bounded (hash range : Nat) (hhash : hash < U32)
    (hr1 : 1 ≤ range) (hr2 : range ≤ 10000) :
    (modulo hash range < range ∧ knuth hash range < range ∧ lcg hash range < range) ∧
    (modulo hash 1 = 0 ∧ knuth hash 1 = 0 ∧ lcg hash 1 = 0) := by
  refine ⟨⟨modulo_lt hash range hr1, knuth_lt hash range hr1, lcg_lt hash range hr1⟩,
    Nat.mod_one _, Nat.mod_one _, ?_⟩
  have h1 : (1664525 * hash + 1013904223) % U32 < U32 := Nat.mod_lt _ (by decide)
  show (1664525 * hash + 1013904223) % U32 * 1 / U32 = 0
  rw [Nat.mul_one]
  exact Nat.div_eq_of_lt h1

theorem c2_witness :
    87654321 < U32 ∧
      ((modulo 87654321 500 < 500 ∧ knuth 87654321 500 < 500 ∧ lcg 87654321 500 < 500) ∧
        (modulo 87654321 1 = 0 ∧ knuth 87654321 1 = 0 ∧ lcg 87654321 1 = 0)) :=
  ⟨by decide, c2_reducers_bounded 87654321 500 (by decide) (by decide) (by decide)⟩

theorem HASH_twin_eq : HASH "twin" = some twin := by simp [HASH]

theorem REDUCERS_knuth_eq : REDUCERS "knuth" = some knuth := by simp [REDUCERS]

/-- C4: with valid inputs, an unknown hash name behaves exactly like
`twin`, an unknown reducer name exactly like `knuth`, and both unknown
exactly like the `twin`/`knuth` defaults; in each case `getPort`
succeeds with the identical port. -/
theorem c4_unknown_names_use_defaults (packageName : JSString) (basePort range : Nat)
    (hash reducer : String) (hname : packageName ≠ [])
    (hb1 : 1024 ≤ basePort) (hb2 : basePort ≤ 65535)
    (hr1 : 1 ≤ range) (hr2 : range ≤ 10000) :
    (HASH hash = none →
      ∃ port, getPort packageName basePort range hash reducer = .ok port ∧
        getPort packageName basePort range "twin" reducer = .ok port) ∧
    (REDUCERS reducer = none →
      ∃ port, getPort packageName basePort range hash reducer = .ok port ∧
        getPort packageName basePort range hash "knuth" = .ok port) ∧
    (HASH hash = none → REDUCERS reducer = none →
      ∃ port, getPort packageName basePort range hash reducer = .ok port ∧
        getPort packageName basePort range "twin" "knuth" = .ok port) := by
  refine ⟨fun hh => ⟨_, getPort_ok _ _ _ _ _ hname hb1 hb2 hr1 hr2, ?_⟩,
    fun hr => ⟨_, getPort_ok _ _ _ _ _ hname hb1 hb2 hr1 hr2, ?_⟩,
    fun hh hr => ⟨_, getPort_ok _ _ _ _ _ hname hb1 hb2 hr1 hr2, ?_⟩⟩
  · rw [getPort_ok _ _ _ _ _ hname hb1 hb2 hr1 hr2, HASH_twin_eq, hh]
    simp [Option.getD]
  · rw [getPort_ok _ _ _ _ _ hname hb1 hb2 hr1 hr2, REDUCERS_knuth_eq, hr]
    simp [Option.getD]
  · rw [getPort_ok _ _ _ _ _ hname hb1 hb2 hr1 hr2, HASH_twin_eq, REDUCERS_knuth_eq, hh, hr]
    simp [Option.getD]

theorem c4_witness :
    HASH "bogus" = none ∧ REDUCERS "wrong" = none ∧
      (∃ port, getPort [120] 3001 1997 "bogus" "wrong" = .ok port ∧
        getPort [120] 3001 1997 "twin" "knuth" = .ok port) :=
  ⟨by simp [HASH], by simp [REDUCERS],
    (c4_unknown_names_use_defaults [120] 3001 1997 "bogus" "wrong" (by decide) (by decide)
        (by decide) (by decide) (by decide)).2.2 (by simp [HASH]) (by simp [REDUCERS])⟩

/-- C5: `getPort` fails with `invalidIdentifier` on an empty identifier,
with `invalidBasePort` on a non-empty identifier and out-of-bounds base
port, with `invalidRange` on out-of-bounds range once identifier and
base port pass, and succeeds (raising no validation error) on fully
valid input.  The checks run in this order, before any hash or reduce
computation. -/
theorem c5_validation_errors (packageName : JSString) (basePort range : Nat)
    (hash reducer : String) :
    (packageName = [] →
      getPort packageName basePort range hash reducer = .error .invalidIdentifier) ∧
    (packageName ≠ [] → (basePort < 1024 ∨ 65535 < basePort) →
      getPort packageName basePort range hash reducer = .error .invalidBasePort) ∧
    (packageName ≠ [] → 1024 ≤ basePort → basePort ≤ 65535 →
      (range < 1 ∨ 10000 < range) →
      getPort packageName basePort range hash reducer = .error .invalidRange) ∧
    (packageName ≠ [] → 1024 ≤ basePort → basePort ≤ 65535 → 1 ≤ range → range ≤ 10000 →
      ∃ port, getPort packageName basePort range hash reducer = .ok port) := by
  refine ⟨fun h => ?_, fun hn hb => ?_, fun hn hb1 hb2 hr => ?_,
    fun hn hb1 hb2 hr1 hr2 => ⟨_, getPort_ok _ _ _ _ _ hn hb1 hb2 hr1 hr2⟩⟩
  · subst h; rfl
  · have hne : packageName.isEmpty = false := by
      cases packageName with
      | nil => exact absurd rfl hn
      | cons a l => rfl
    unfold getPort getPortWith
    rw [hne]
    simp only [Bool.false_eq_true, if_false]
    rw [if_pos (by omega)]
  · have hne : packageName.isEmpty = false := by
      cases packageName with
      | nil => exact absurd rfl hn
      | cons a l => rfl
    unfold getPort getPortWith
    rw [hne]
    simp only [Bool.false_eq_true, if_false]
    rw [if_neg (by omega), if_pos (by omega)]

theorem c5_witness :
    getPort [] 3001 1997 "twin" "knuth" = .error .invalidIdentifier ∧
      getPort [120] 100 1997 "twin" "knuth" = .error .invalidBasePort ∧
      getPort [120] 3001 0 "twin" "knuth" = .error .invalidRange ∧
      (∃ port, getPort [120] 3001 1997 "twin" "knuth" = .ok port) :=
  ⟨(c5_validation_errors [] 3001 1997 "twin" "knuth").1 rfl,
    (c5_validation_errors [120] 100 1997 "twin" "knuth").2.1 (by decide) (by omega),
    (c5_validation_errors [120] 3001 0 "twin" "knuth").2.2.1 (by decide) (by omega)
      (by omega) (by omega),
    (c5_validation_errors [120] 3001 1997 "twin" "knuth").2.2.2 (by decide) (by omega)
      (by omega) (by omega) (by omega)⟩

/-- C6: on validated input, the post-computation check of `getPort`
rejects any offset at or beyond `range` with `invariantViolated`
carrying the hash name, the reducer name, the computed port, the
offset, and the expected bounds (`basePort` and `range` determine
`basePort .. basePort + range - 1`); it accepts any offset below
`range`; and with the built-in tables (any requested names) the error
branch is unreachable — `getPort` succeeds. -/
theorem c6_invariant_check (hashFunction : JSString → Nat)
    (reducerFunction : Nat → Nat → Nat) (packageName : JSString) (basePort range : Nat)
    (hash reducer : String) (hname : packageName ≠ [])
    (hb1 : 1024 ≤ basePort) (hb2 : basePort ≤ 65535)
    (hr1 : 1 ≤ range) (hr2 : range ≤ 10000) :
    (range ≤ reducerFunction (hashFunction packageName) range →
      getPortWith hash reducer hashFunction reducerFunction packageName basePort range =
        .error (.invariantViolated hash reducer
          (basePort + reducerFunction (hashFunction packageName) range)
          (reducerFunction (hashFunction packageName) range) basePort range)) ∧
    (reducerFunction (hashFunction packageName) range < range →
      getPortWith hash reducer hashFunction reducerFunction packageName basePort range =
        .ok (basePort + reducerFunction (hashFunction packageName) range)) ∧
    (∃ port, getPort packageName basePort range hash reducer = .ok port) :=
  ⟨fun hge => getPortWith_invariantViolated hash reducer _ _ _ _ _ hname hb1 hb2 hr1 hr2 hge,
    fun hlt => getPortWith_ok hash reducer _ _ _ _ _ hname hb1 hb2 hr1 hr2 hlt,
    ⟨_, getPort_ok _ _ _ _ _ hname hb1 hb2 hr1 hr2⟩⟩

theorem c6_witness :
    getPortWith "sdbm" "buggy" sdbm (fun _ _ => 999999) [116, 101, 115, 116] 3000 100 =
      .error (.invariantViolated "sdbm" "buggy" (3000 + 999999) 999999 3000 100) ∧
      (∃ port, getPort [116, 101, 115, 116] 3000 100 "sdbm" "buggy" = .ok port) :=
  ⟨(c6_invariant_check sdbm (fun _ _ => 999999) [116, 101, 115, 116] 3000 100 "sdbm"
      "buggy" (by decide) (by decide) (by decide) (by decide) (by decide)).1 (by decide),
    (c6_invariant_check sdbm (fun _ _ => 999999) [116, 101, 115, 116] 3000 100 "sdbm"
      "buggy" (by decide) (by decide) (by decide) (by decide) (by decide)).2.2⟩

/-- The accumulator loop of the `primeHash` of the code, re-expressed
as the position-indexed fold of the spec (shifted to start at position `i`). -/
theorem primeHashGo_eq_foldl (primes : List Nat) (cs : JSString) :
    ∀ (i hash : Nat),
      primeHashGo primes i hash cs =
        (List.range cs.length).foldl
          (fun acc j => (acc * primes.getD ((i + j) % primes.length) 0 + cs.getD j 0) % U32)
          hash := by
  induction cs with
  | nil => intro i hash; rfl
  | cons c cs ih =>
    intro i hash
    rw [primeHashGo, ih (i + 1)]
    rw [List.length_cons, List.range_succ_eq_map]
    rw [List.foldl_cons, List.foldl_map]
    congr 1
    · funext acc j
      have hij : i + 1 + j = i + Nat.succ j := by omega
      rw [List.getD_cons_succ, hij]

/-- The `primeHash` of the code computes exactly the prime mix of the spec. -/
theorem primeHash_eq_primeMixSpec (name : JSString) (primes : List Nat) (initial : Nat) :
    primeHash name primes initial = primeMixSpec primes initial name := by
  unfold primeHash primeMixSpec
  rw [primeHashGo_eq_foldl]
  simp only [Nat.zero_add]

theorem primeHashGo_lt (primes : List Nat) :
    ∀ (cs : JSString) (i hash : Nat), hash < U32 → primeHashGo primes i hash cs < U32
  | [], _, _, h => h
  | c :: cs, i, hash, _ =>
    primeHashGo_lt primes cs (i + 1) _ (Nat.mod_lt _ (by decide))

theorem primeHashGo_lt_of_ne (primes : List Nat) :
    ∀ (cs : JSString) (i hash : Nat), cs ≠ [] → primeHashGo primes i hash cs < U32
  | [], _, _, h => absurd rfl h
  | c :: cs, i, hash, _ =>
    primeHashGo_lt primes cs (i + 1) _ (Nat.mod_lt _ (by decide))

theorem sdbm_lt (name : JSString) : sdbm name < U32 := by
  cases name with
  | nil => decide
  | cons c cs => exact primeHashGo_lt_of_ne _ _ _ _ (by simp)

theorem safe_lt (name : JSString) : safe name < U32 := by
  cases name with
  | nil => decide
  | cons c cs => exact primeHashGo_lt_of_ne _ _ _ _ (by simp)

theorem twin_lt (name : JSString) : twin name < U32 := by
  cases name with
  | nil => decide
  | cons c cs => exact primeHashGo_lt_of_ne _ _ _ _ (by simp)

theorem cascade_lt (name : JSString) : cascade name < U32 := by
  cases name with
  | nil => decide
  | cons c cs => exact primeHashGo_lt_of_ne _ _ _ _ (by simp)

theorem double_lt (name : JSString) : double name < U32 :=
  Nat.mod_lt _ (by decide)

/-- C3: each named hash function equals the prime-mix reference of the spec
(`primeMixSpec`, initial accumulator the character count except where
fixed) with the stated prime lists; `double` equals the combination the spec
describes of the [31] and [37] (initial 1) mixes reduced mod
2147483647, XOR-combined with a 1-bit shift mod 2^32, and multiplied by
2654435761 with 32-bit wraparound.  Every hash function is total (so
never throws) and returns an unsigned 32-bit value, on the empty
identifier as well. -/
theorem c3_hashes_match_prime_mix (name : JSString) :
    (sdbm name = primeMixSpec [65599] name.length name ∧
      safe name = primeMixSpec [23] name.length name ∧
      twin name = primeMixSpec [31, 37] name.length name ∧
      cascade name = primeMixSpec [31, 37, 41, 43, 47] name.length name ∧
      double name =
        ((primeMixSpec [31] name.length name % 2147483647) ^^^
            (2 * (primeMixSpec [37] 1 name % 2147483647))) % U32 * 2654435761 % U32) ∧
    (sdbm name < U32 ∧ safe name < U32 ∧ twin name < U32 ∧
      cascade name < U32 ∧ double name < U32) := by
  refine ⟨⟨primeHash_eq_primeMixSpec name _ _, primeHash_eq_primeMixSpec name _ _,
      primeHash_eq_primeMixSpec name _ _, primeHash_eq_primeMixSpec name _ _, ?_⟩,
    sdbm_lt name, safe_lt name, twin_lt name, cascade_lt name, double_lt name⟩
  have h2lt : primeHash name [37] 1 % 2147483647 < 2147483647 := Nat.mod_lt _ (by decide)
  show ((primeHash name [31] name.length % 2147483647) ^^^
      (2 * (primeHash name [37] 1 % 2147483647) % U32)) % U32 * 2654435761 % U32 = _
  rw [Nat.mod_eq_of_lt (show 2 * (primeHash name [37] 1 % 2147483647) < U32 by
    unfold U32; omega)]
  rw [primeHash_eq_primeMixSpec, primeHash_eq_primeMixSpec]

/-- C10: `getPort` never constrains `basePort + range`: at the maximal
base port 65535 with range 2 (both individually valid) it succeeds and
returns 65536, a value outside the TCP port space. -/
theorem c10_no_sum_constraint :
    ∃ port, getPort [98] 65535 2 "twin" "knuth" = .ok port ∧ 65535 < port :=
  ⟨65536, by decide, by decide⟩

theorem mapPorts_ok (basePort range : Nat) (hash reducer : String) :
    ∀ (imports : List JSString) (entries : List (JSString × Nat)),
      mapPorts imports basePort range hash reducer = .ok entries →
      entries.map Prod.fst = imports ∧
        ∀ e ∈ entries, getPort e.1 basePort range hash reducer = .ok e.2 := by
  intro imports
  induction imports with
  | nil =>
    intro entries h
    rw [mapPorts] at h
    cases h
    exact ⟨rfl, by intro e he; cases he⟩
  | cons n ns ih =>
    intro entries h
    rw [mapPorts] at h
    cases h1 : getPort n basePort range hash reducer with
    | error e => rw [h1] at h; cases h
    | ok port =>
      rw [h1] at h
      cases h2 : mapPorts ns basePort range hash reducer with
      | error e => rw [h2] at h; cases h
      | ok rest =>
        rw [h2] at h
        cases h
        obtain ⟨ihm, ihe⟩ := ih rest h2
        refine ⟨by simp [ihm], ?_⟩
        intro e he
        rcases List.mem_cons.mp he with he | he
        · subst he; exact h1
        · exact ihe e he

/-- Option-valued append used to state how one `reduce` step of
`analyzeImportMap` extends the group of a port. -/
def appOpt (o : Option (List JSString)) (l : List JSString) : Option (List JSString) :=
  match o, l with
  | none, [] => none
  | o, l => some (o.getD [] ++ l)

theorem appOpt_nil (o : Option (List JSString)) : appOpt o [] = o := by
  cases o <;> simp [appOpt]

theorem appOpt_some (x : List JSString) (l : List JSString) :
    appOpt (some x) l = some (x ++ l) := by
  cases l <;> simp [appOpt]

theorem lookup_cons {α β : Type} [BEq α] [LawfulBEq α] [DecidableEq α]
    (k : α) (v : β) (l : List (α × β)) (q : α) :
    ((k, v) :: l).lookup q = if q = k then some v else l.lookup q := by
  by_cases h : q = k
  · subst h
    simp [List.lookup, beq_self_eq_true]
  · simp [List.lookup, beq_eq_false_iff_ne.mpr h, h]

theorem addToPorts_lookup (acc : List (Nat × List JSString)) (port : Nat)
    (name : JSString) (q : Nat) :
    (addToPorts acc port name).lookup q =
      if q = port then some (((acc.lookup port).getD []) ++ [name])
      else acc.lookup q := by
  induction acc with
  | nil =>
    rw [addToPorts, lookup_cons]
    by_cases hq : q = port
    · rw [if_pos hq, if_pos hq]
      simp [List.lookup]
    · rw [if_neg hq, if_neg hq]
  | cons hd rest ih =>
    obtain ⟨k, l⟩ := hd
    rw [addToPorts]
    by_cases hk : k = port
    · rw [if_pos hk, lookup_cons, lookup_cons, lookup_cons]
      subst hk
      split_ifs <;> simp_all
    · rw [if_neg hk, lookup_cons, lookup_cons, ih, lookup_cons]
      have hpk : ¬port = k := fun h => hk h.symm
      rw [if_neg hpk]
      split_ifs <;> simp_all

theorem addToPorts_keys (acc : List (Nat × List JSString)) (port : Nat)
    (name : JSString) :
    (addToPorts acc port name).map Prod.fst =
      if port ∈ acc.map Prod.fst then acc.map Prod.fst
      else acc.map Prod.fst ++ [port] := by
  induction acc with
  | nil => simp [addToPorts]
  | cons hd rest ih =>
    obtain ⟨k, l⟩ := hd
    rw [addToPorts]
    by_cases hk : k = port
    · subst hk
      simp
    · rw [if_neg hk]
      have hk' : ¬port = k := fun h => hk h.symm
      simp only [List.map_cons, List.mem_cons, hk', false_or, ih]
      by_cases hmem : port ∈ rest.map Prod.fst <;> simp [hmem]

theorem addToPorts_keys_nodup (acc : List (Nat × List JSString)) (port : Nat)
    (name : JSString) (h : (acc.map Prod.fst).Nodup) :
    ((addToPorts acc port name).map Prod.fst).Nodup := by
  rw [addToPorts_keys]
  by_cases hmem : port ∈ acc.map Prod.fst
  · rwa [if_pos hmem]
  · rw [if_neg hmem]
    simp [List.nodup_append, h, hmem]

theorem buildPortsAux_lookup :
    ∀ (es : List (JSString × Nat)) (acc : List (Nat × List JSString)) (q : Nat),
      ((es.foldl (fun acc e => addToPorts acc e.2 e.1) acc).lookup q) =
        appOpt (acc.lookup q) ((es.filter (fun e => e.2 == q)).map Prod.fst) := by
  intro es
  induction es with
  | nil => intro acc q; simp [appOpt_nil]
  | cons e es ih =>
    intro acc q
    rw [List.foldl_cons, ih]
    by_cases hq : e.2 = q
    · subst hq
      rw [List.filter_cons]
      simp only [beq_self_eq_true, if_true, List.map_cons]
      rw [addToPorts_lookup, if_pos rfl, appOpt_some]
      cases hacc : acc.lookup e.2 <;>
        simp [appOpt, List.append_assoc]
    · rw [List.filter_cons]
      simp only [beq_eq_false_iff_ne.mpr hq, Bool.false_eq_true, if_false]
      rw [addToPorts_lookup, if_neg (fun h => hq h.symm)]

theorem buildPortsAux_keys_nodup :
    ∀ (es : List (JSString × Nat)) (acc : List (Nat × List JSString)),
      (acc.map Prod.fst).Nodup →
      (((es.foldl (fun acc e => addToPorts acc e.2 e.1) acc)).map Prod.fst).Nodup := by
  intro es
  induction es with
  | nil => intro acc h; exact h
  | cons e es ih =>
    intro acc h
    rw [List.foldl_cons]
    exact ih _ (addToPorts_keys_nodup acc e.2 e.1 h)

theorem buildPortsAux_sumLen :
    ∀ (es : List (JSString × Nat)) (acc : List (Nat × List JSString)),
      (((es.foldl (fun acc e => addToPorts acc e.2 e.1) acc)).map
          (fun g => g.2.length)).sum =
        ((acc.map (fun g => g.2.length)).sum) + es.length := by
  have step : ∀ (acc : List (Nat × List JSString)) (port : Nat) (name : JSString),
      ((addToPorts acc port name).map (fun g => g.2.length)).sum =
        ((acc.map (fun g => g.2.length)).sum) + 1 := by
    intro acc port name
    induction acc with
    | nil => simp [addToPorts]
    | cons hd rest ih =>
      obtain ⟨k, l⟩ := hd
      rw [addToPorts]
      by_cases hk : k = port
      · rw [if_pos hk]; simp; omega
      · rw [if_neg hk]; simp [ih]; omega
  intro es
  induction es with
  | nil => intro acc; simp
  | cons e es ih =>
    intro acc
    rw [List.foldl_cons, ih, step]
    simp [Nat.add_assoc, Nat.add_comm 1 es.length]

/-- Membership in an association list with distinct keys is exactly a
successful lookup. -/
theorem mem_iff_lookup {α β : Type} [BEq α] [LawfulBEq α] :
    ∀ (l : List (α × β)), (l.map Prod.fst).Nodup →
      ∀ (p : α) (g : β), ((p, g) ∈ l ↔ l.lookup p = some g) := by
  intro l
  induction l with
  | nil => intro _ p g; simp [List.lookup]
  | cons hd rest ih =>
    intro hnd p g
    obtain ⟨k, v⟩ := hd
    simp only [List.map_cons, List.nodup_cons] at hnd
    obtain ⟨hk, hnd'⟩ := hnd
    by_cases hp : p = k
    · subst hp
      have : (p == p) = true := by simp
      simp only [List.lookup, this, List.mem_cons]
      constructor
      · rintro (h | h)
        · cases h; rfl
        · exact absurd (List.mem_map_of_mem Prod.fst h) hk
      · rintro h
        cases h
        exact Or.inl rfl
    · have : (p == k) = false := by simp [hp]
      simp only [List.lookup, this, List.mem_cons]
      rw [← ih hnd' p g]
      constructor
      · rintro (h | h)
        · cases h; exact absurd rfl hp
        · exact h
      · exact Or.inr

/-- The group stored under a port is the projection of the entries that
resolved to that port, in entry order. -/
theorem buildPorts_group (entries : List (JSString × Nat)) (port : Nat)
    (group : List JSString) (h : (port, group) ∈ buildPorts entries) :
    group = (entries.filter (fun e => e.2 == port)).map Prod.fst := by
  have hnd : ((buildPorts entries).map Prod.fst).Nodup :=
    buildPortsAux_keys_nodup entries [] (by simp)
  have hlook := (mem_iff_lookup (buildPorts entries) hnd port group).mp h
  rw [buildPorts] at hlook
  rw [buildPortsAux_lookup entries [] port] at hlook
  simp only [List.lookup] at hlook
  cases hfil : (entries.filter (fun e => e.2 == port)).map Prod.fst with
  | nil => rw [hfil] at hlook; simp [appOpt] at hlook
  | cons x xs =>
    rw [hfil] at hlook
    simp [appOpt] at hlook
    exact hlook.symm

/-- Projecting the entry filter of a port to keys equals filtering the key
list by lookup, when keys are distinct. -/
theorem filter_entries_eq_filter_keys :
    ∀ (entries : List (JSString × Nat)), ((entries.map Prod.fst).Nodup) → ∀ (port : Nat),
      (entries.filter (fun e => e.2 == port)).map Prod.fst =
        (entries.map Prod.fst).filter (fun name => entries.lookup name == some port) := by
  intro entries
  induction entries with
  | nil => intro _ port; simp
  | cons e rest ih =>
    intro hnd port
    obtain ⟨k, v⟩ := e
    simp only [List.map_cons, List.nodup_cons] at hnd
    obtain ⟨hk, hnd'⟩ := hnd
    have hkk : (k == k) = true := by simp
    have hcongr : (rest.map Prod.fst).filter
          (fun name => ((k, v) :: rest).lookup name == some port) =
        (rest.map Prod.fst).filter (fun name => rest.lookup name == some port) := by
      apply List.filter_congr
      intro n hn
      have hnk : (n == k) = false := by
        simp only [beq_eq_false_iff_ne, ne_eq]
        intro hnk
        exact hk (hnk ▸ hn)
      simp [List.lookup, hnk]
    by_cases hv : v = port
    · subst hv
      rw [List.filter_cons_of_pos (by simp), List.map_cons, List.map_cons,
        List.filter_cons_of_pos (by simp [List.lookup, hkk]), hcongr, ih hnd' v]
    · have hv' : (v == port) = false := by simp [hv]
      rw [List.filter_cons_of_neg (by simp [hv']), List.map_cons,
        List.filter_cons_of_neg (by simp [List.lookup, hkk, hv']), hcongr, ih hnd' port]

/-- C7: when `analyzeImportMap` returns an analysis for a duplicate-free
key list, the group sizes in `ports` sum to the number of input
identifiers (none dropped or double-counted), every identifier grouped
under a port maps to that port in `entries`, `entries` has exactly one
key per input identifier (in input order), and each entry is `getPort`
of its identifier with the same parameters. -/
theorem c7_analysis_invariants (imports : List JSString) (basePort range : Nat)
    (hash reducer : String) (a : ImportMapAnalysis) (hnodup : imports.Nodup)
    (hok : analyzeImportMap imports basePort range hash reducer = .ok a) :
    ((a.ports.map (fun g => g.2.length)).sum = imports.length) ∧
    (∀ port group, (port, group) ∈ a.ports → ∀ name ∈ group,
      a.entries.lookup name = some port) ∧
    (a.entries.map Prod.fst = imports) ∧
    (∀ e ∈ a.entries, getPort e.1 basePort range hash reducer = .ok e.2) := by
  rw [analyzeImportMap] at hok
  cases hmap : mapPorts imports basePort range hash reducer with
  | error e => rw [hmap] at hok; cases hok
  | ok entries =>
    rw [hmap] at hok
    cases hok
    obtain ⟨hkeys, hget⟩ := mapPorts_ok basePort range hash reducer imports entries hmap
    have hnd : (entries.map Prod.fst).Nodup := hkeys ▸ hnodup
    refine ⟨?_, ?_, hkeys, hget⟩
    · have := buildPortsAux_sumLen entries []
      rw [buildPorts]
      rw [this]
      simp [← hkeys]
    · intro port group hmem name hname
      have hgroup := buildPorts_group entries port group hmem
      rw [hgroup] at hname
      obtain ⟨e, he, hefst⟩ := List.mem_map.mp hname
      have hesnd : e.2 = port := by
        have := List.of_mem_filter he
        simpa using this
      have hee : e ∈ entries := List.mem_of_mem_filter he
      have : (name, port) ∈ entries := by
        have : e = (name, port) := Prod.ext hefst hesnd
        rwa [this] at hee
      exact (mem_iff_lookup entries hnd name port).mp this

theorem c7_witness :
    ([[97], [98], [99]] : List JSString).Nodup ∧
      analyzeImportMap [[97], [98], [99]] 3001 1 "twin" "knuth" =
        .ok ⟨[([97], 3001), ([98], 3001), ([99], 3001)],
          [(3001, [[97], [98], [99]])]⟩ ∧
      (((⟨[([97], 3001), ([98], 3001), ([99], 3001)],
            [(3001, [[97], [98], [99]])]⟩ : ImportMapAnalysis).ports.map
          (fun g => g.2.length)).sum = ([[97], [98], [99]] : List JSString).length) :=
  ⟨by decide, by decide,
    (c7_analysis_invariants [[97], [98], [99]] 3001 1 "twin" "knuth"
      ⟨[([97], 3001), ([98], 3001), ([99], 3001)], [(3001, [[97], [98], [99]])]⟩
      (by decide) (by decide)).1⟩

/-- C8: each group in `ports` lists exactly the input identifiers that
resolved to its port, in the iteration order of the input — it equals the
input filtered to those identifiers, and in particular is a sublist of
the input. -/
theorem c8_group_order_preserved (imports : List JSString) (basePort range : Nat)
    (hash reducer : String) (a : ImportMapAnalysis) (hnodup : imports.Nodup)
    (hok : analyzeImportMap imports basePort range hash reducer = .ok a) :
    ∀ port group, (port, group) ∈ a.ports →
      group = imports.filter (fun name => a.entries.lookup name == some port) ∧
        group.Sublist imports := by
  rw [analyzeImportMap] at hok
  cases hmap : mapPorts imports basePort range hash reducer with
  | error e => rw [hmap] at hok; cases hok
  | ok entries =>
    rw [hmap] at hok
    cases hok
    obtain ⟨hkeys, hget⟩ := mapPorts_ok basePort range hash reducer imports entries hmap
    have hnd : (entries.map Prod.fst).Nodup := hkeys ▸ hnodup
    intro port group hmem
    have hgroup := buildPorts_group entries port group hmem
    rw [filter_entries_eq_filter_keys entries hnd port, hkeys] at hgroup
    exact ⟨hgroup, hgroup ▸ List.filter_sublist imports⟩

theorem c8_witness :
    ([[97], [98], [99]] : List JSString).Nodup ∧
      analyzeImportMap [[97], [98], [99]] 3001 1 "twin" "knuth" =
        .ok ⟨[([97], 3001), ([98], 3001), ([99], 3001)],
          [(3001, [[97], [98], [99]])]⟩ ∧
      ([[97], [98], [99]] : List JSString) =
        ([[97], [98], [99]] : List JSString).filter
          (fun name =>
            (([([97], 3001), ([98], 3001), ([99], 3001)] :
              List (JSString × Nat)).lookup name == some 3001)) :=
  ⟨by decide, by decide,
    (c8_group_order_preserved [[97], [98], [99]] 3001 1 "twin" "knuth"
        ⟨[([97], 3001), ([98], 3001), ([99], 3001)], [(3001, [[97], [98], [99]])]⟩
        (by decide) (by decide) 3001 [[97], [98], [99]] (by decide)).1⟩

theorem benchLe_iff (x y : BenchmarkResult) :
    benchLe x y = true ↔
      (x.collisions < y.collisions ∨
        (x.collisions = y.collisions ∧ y.uniquePorts ≤ x.uniquePorts)) := by
  simp [benchLe]

theorem benchLe_trans (a b c : BenchmarkResult) (hab : benchLe a b) (hbc : benchLe b c) :
    benchLe a c := by
  rw [benchLe_iff] at hab hbc ⊢
  omega

theorem benchLe_total (a b : BenchmarkResult) : benchLe a b || benchLe b a := by
  rw [Bool.or_eq_true, benchLe_iff, benchLe_iff]
  omega

theorem mapPorts_isOk (basePort range : Nat) (hash reducer : String)
    (hb1 : 1024 ≤ basePort) (hb2 : basePort ≤ 65535)
    (hr1 : 1 ≤ range) (hr2 : range ≤ 10000) :
    ∀ (imports : List JSString), (∀ n ∈ imports, n ≠ []) →
      ∃ entries, mapPorts imports basePort range hash reducer = .ok entries := by
  intro imports
  induction imports with
  | nil => exact fun _ => ⟨[], rfl⟩
  | cons n ns ih =>
    intro hall
    obtain ⟨es, hes⟩ := ih (fun m hm => hall m (List.mem_cons_of_mem _ hm))
    rw [mapPorts,
      getPort_ok n basePort range hash reducer (hall n (List.mem_cons_self _ _))
        hb1 hb2 hr1 hr2,
      hes]
    exact ⟨_, rfl⟩

theorem analyzeImportMap_isOk (imports : List JSString) (basePort range : Nat)
    (hash reducer : String) (hall : ∀ n ∈ imports, n ≠ [])
    (hb1 : 1024 ≤ basePort) (hb2 : basePort ≤ 65535)
    (hr1 : 1 ≤ range) (hr2 : range ≤ 10000) :
    ∃ a, analyzeImportMap imports basePort range hash reducer = .ok a := by
  obtain ⟨es, hes⟩ := mapPorts_isOk basePort range hash reducer hb1 hb2 hr1 hr2 imports hall
  rw [analyzeImportMap, hes]
  exact ⟨_, rfl⟩

theorem strategyResult_isSome (imports : List JSString) (basePort range : Nat)
    (hash reducer : String) (hall : ∀ n ∈ imports, n ≠ [])
    (hb1 : 1024 ≤ basePort) (hb2 : basePort ≤ 65535)
    (hr1 : 1 ≤ range) (hr2 : range ≤ 10000) :
    ∃ a, analyzeImportMap imports basePort range hash reducer = .ok a ∧
      strategyResult imports basePort range hash reducer =
        some ⟨jsCapitalize hash, jsCapitalize reducer, collisionCount a, uniquePortCount a⟩ := by
  obtain ⟨a, ha⟩ :=
    analyzeImportMap_isOk imports basePort range hash reducer hall hb1 hb2 hr1 hr2
  refine ⟨a, ha, ?_⟩
  rw [strategyResult, ha]

theorem length_filterMap_of_isSome {α β : Type} (f : α → Option β) :
    ∀ (l : List α), (∀ x ∈ l, (f x).isSome) → (l.filterMap f).length = l.length := by
  intro l
  induction l with
  | nil => intro _; rfl
  | cons x xs ih =>
    intro h
    rw [List.filterMap_cons]
    cases hx : f x with
    | none =>
      have hs := h x (List.mem_cons_self x xs)
      rw [hx] at hs
      cases hs
    | some y =>
      simp [ih (fun z hz => h z (List.mem_cons_of_mem _ hz))]

/-- C9: over any identifier set of non-empty names and valid base/range,
the benchmark yields exactly 15 = 5 × 3 rows, one per (hash, reducer)
combination, whose `collisions` and `uniquePorts` fields are the
collision count and distinct-port count of the analysis of that combination;
the list is pairwise ordered by ascending collisions then descending
unique ports; and any run of fully tied rows keeps its
combination-enumeration order (it survives as a sublist of the sorted
output). -/
theorem c9_benchmark_rows_and_order (imports : List JSString) (basePort range : Nat)
    (hall : ∀ n ∈ imports, n ≠ [])
    (hb1 : 1024 ≤ basePort) (hb2 : basePort ≤ 65535)
    (hr1 : 1 ≤ range) (hr2 : range ≤ 10000) :
    ((benchmark imports basePort range).length = 15) ∧
    (∀ hash ∈ HASH_NAMES, ∀ reducer ∈ REDUCER_NAMES,
      ∃ a, analyzeImportMap imports basePort range hash reducer = .ok a ∧
        (⟨jsCapitalize hash, jsCapitalize reducer, collisionCount a, uniquePortCount a⟩ :
          BenchmarkResult) ∈ benchmark imports basePort range) ∧
    ((benchmark imports basePort range).Pairwise (fun x y =>
      x.collisions < y.collisions ∨
        (x.collisions = y.collisions ∧ y.uniquePorts ≤ x.uniquePorts))) ∧
    (∀ c : List BenchmarkResult,
      c.Sublist ((HASH_NAMES.flatMap (fun h => REDUCER_NAMES.map (fun r => (h, r)))).filterMap
        (fun p => strategyResult imports basePort range p.1 p.2)) →
      (∀ x ∈ c, ∀ y ∈ c, x.collisions = y.collisions ∧ x.uniquePorts = y.uniquePorts) →
      c.Sublist (benchmark imports basePort range)) := by
  have hsome : ∀ p : String × String,
      (strategyResult imports basePort range p.1 p.2).isSome := by
    intro p
    obtain ⟨a, -, hs⟩ :=
      strategyResult_isSome imports basePort range p.1 p.2 hall hb1 hb2 hr1 hr2
    rw [hs]
    rfl
  refine ⟨?_, ?_, ?_, ?_⟩
  · rw [benchmark, List.length_mergeSort,
      length_filterMap_of_isSome _ _ (fun p _ => hsome p)]
    rfl
  · intro hash hh reducer hr
    obtain ⟨a, ha, hs⟩ :=
      strategyResult_isSome imports basePort range hash reducer hall hb1 hb2 hr1 hr2
    refine ⟨a, ha, ?_⟩
    rw [benchmark, List.mem_mergeSort]
    exact List.mem_filterMap.mpr
      ⟨(hash, reducer),
        List.mem_flatMap.mpr ⟨hash, hh, List.mem_map.mpr ⟨reducer, hr, rfl⟩⟩, hs⟩
  · exact (List.sorted_mergeSort benchLe_trans benchLe_total _).imp
      (fun h => (benchLe_iff _ _).mp h)
  · intro c hsub htie
    rw [benchmark]
    refine List.sublist_mergeSort benchLe_trans benchLe_total ?_ hsub
    refine List.pairwise_of_forall_mem_list ?_
    intro x hx y hy
    obtain ⟨h1, h2⟩ := htie x hx y hy
    rw [benchLe_iff]
    omega

theorem c9_witness :
    (∀ n ∈ ([[97], [98]] : List JSString), n ≠ []) ∧
      (benchmark [[97], [98]] 3001 1997).length = 15 :=
  ⟨by decide,
    (c9_benchmark_rows_and_order [[97], [98]] 3001 1997 (by decide) (by decide)
      (by decide) (by decide) (by decide)).1⟩

end Portico
